import Mathlib

/-!
Shallow embedding of the local scheduling engine of the todo-vocal-calendar
repository (`scheduleLocally` and its inner helper `parseTimePreference`),
together with verified properties of the embedding.

Modelling conventions:
* Minutes of day and durations are `Int` (JS numbers; all values arising in
  the program are integers, and durations may in principle be non-positive).
* A JS `Date` is modelled as a calendar day identifier (`Int`, standing for
  equality of `toDateString()`) plus the minute of day
  (`getHours() * 60 + getMinutes()`), which is all the scheduler reads.
* `Math.ceil(x / 15) * 15` on integers is `(x + 14) / 15 * 15` with `Int`
  (floor) division.
* The two regular expressions of the parser are embedded as character-list
  matchers with the exact backtracking behaviour of the patterns
  `at (\d{1,2})(?::(\d{2}))?\s*(am|pm)?` (unanchored, leftmost match; likewise
  for `before ` / `after `) and `^(\d{1,2})(?::(\d{2}))?\s*(am|pm)$`.
* The `while` probe loop of the flexible placement is given fuel
  `(1321 - duration - searchStart).toNat`, which decreases slower than the
  loop counter advances, so the fuel never runs out before the loop's own
  exit condition `searchStart + duration > 1320` fires.
* JS `Array.prototype.sort` with a numeric comparator is stable (ES2019);
  a stable sort's output is unique, so it is embedded as `List.insertionSort`.
-/

namespace TodoVocal

/-- A backlog task (`TodoItem` in `src/types.ts`); `listName` is never read by
the scheduler and is omitted. -/
structure TodoItem where
  id : String
  title : String
  duration : Int
  priority : Int
  timePreference : Option String
  location : Option String := none
  deriving Repr, DecidableEq

/-- A calendar timestamp: the calendar day (`toDateString()` identity) and the
minute of day (`getHours() * 60 + getMinutes()`). -/
structure DateTime where
  day : Int
  minuteOfDay : Nat
  deriving Repr, DecidableEq

/-- A calendar event; only its `start` and `end` timestamps are read by the
scheduler (`stop` stands for the field `end`, a Lean keyword). -/
structure CalendarEvent where
  start : DateTime
  stop : DateTime
  deriving Repr, DecidableEq

/-- A busy interval `{start, end}` in minutes of day. -/
structure Iv where
  start : Int
  stop : Int
  deriving Repr, DecidableEq

/-- One output assignment (`ScheduleResult`); the raw committed minute is kept
and the `startTime` string is recovered by `startTimeString`. -/
structure ScheduleResult where
  todoId : String
  title : String
  startMinute : Int
  duration : Int
  deriving Repr, DecidableEq

/-- `String(n).padStart(2, '0')`. -/
def pad2 (n : Int) : String :=
  let s := toString n
  if s.length < 2 then "0" ++ s else s

/-- The `startTime` field of a committed result:
`HH:MM` from `Math.floor(slotStart / 60)` and `slotStart % 60`. -/
def startTimeString (m : Int) : String :=
  pad2 (m / 60) ++ ":" ++ pad2 (m % 60)

/-- Result of `parseTimePreference`: a preferred start minute and whether the
time is exact/pinned. -/
structure ParsedPref where
  start : Int
  exact : Bool
  deriving Repr, DecidableEq

/-- am/pm suffix of a matched clock time. -/
inductive Meridiem where
  | am
  | pm
  deriving Repr, DecidableEq

/-- Numeric value of a decimal digit character. -/
def digVal (c : Char) : Nat := c.toNat - '0'.toNat

/-- Match `(\d{1,2})(?::(\d{2}))?\s*(am|pm)?` at the head of the input.
Because every group after the hour digits can match the empty string, the
greedy two-digit hour never needs to backtrack. -/
def matchClock : List Char → Option (Nat × Nat × Option Meridiem)
  | [] => none
  | c1 :: rest =>
    if c1.isDigit then
      let (hour, rest1) :=
        match rest with
        | c2 :: rest2 =>
          if c2.isDigit then (10 * digVal c1 + digVal c2, rest2) else (digVal c1, rest)
        | [] => (digVal c1, ([] : List Char))
      let (minute, rest2) :=
        match rest1 with
        | ':' :: a :: b :: r =>
          if a.isDigit && b.isDigit then (10 * digVal a + digVal b, r) else (0, rest1)
        | _ => (0, rest1)
      let rest3 := rest2.dropWhile (·.isWhitespace)
      let mer : Option Meridiem :=
        match rest3 with
        | 'a' :: 'm' :: _ => some .am
        | 'p' :: 'm' :: _ => some .pm
        | _ => none
      some (hour, minute, mer)
    else none

/-- Match a literal keyword at the head of the input, returning the rest. -/
def matchLit : List Char → List Char → Option (List Char)
  | [], cs => some cs
  | _ :: _, [] => none
  | l :: ls, c :: cs => if l = c then matchLit ls cs else none

/-- Leftmost unanchored match of `lit` followed by a clock time
(the searches for `at `, `before ` and `after `). -/
def findPat (lit : List Char) : List Char → Option (Nat × Nat × Option Meridiem)
  | [] => none
  | c :: rest =>
    match matchLit lit (c :: rest) with
    | some tail =>
      match matchClock tail with
      | some r => some r
      | none => findPat lit rest
    | none => findPat lit rest

/-- Match `\s*(am|pm)$` (used by the anchored standalone-time pattern). -/
def finishMer (cs : List Char) : Option Meridiem :=
  match cs.dropWhile (·.isWhitespace) with
  | ['a', 'm'] => some .am
  | ['p', 'm'] => some .pm
  | _ => none

/-- Match `(?::(\d{2}))?\s*(am|pm)$`: greedily take `:MM` when present, and
backtrack to the empty alternative when the rest then fails. -/
def tailMinuteMer (cs : List Char) : Option (Nat × Meridiem) :=
  let noMin := (finishMer cs).map (fun m => (0, m))
  match cs with
  | ':' :: a :: b :: r =>
    if a.isDigit && b.isDigit then
      match finishMer r with
      | some m => some (10 * digVal a + digVal b, m)
      | none => noMin
    else noMin
  | _ => noMin

/-- The anchored standalone pattern `^(\d{1,2})(?::(\d{2}))?\s*(am|pm)$`:
the greedy two-digit hour backtracks to one digit when the tail fails.
Note the am/pm suffix is mandatory here. -/
def matchStandalone : List Char → Option (Nat × Nat × Meridiem)
  | [] => none
  | [c1] =>
    if c1.isDigit then (tailMinuteMer []).map (fun p => (digVal c1, p.1, p.2)) else none
  | c1 :: c2 :: rest =>
    if c1.isDigit then
      if c2.isDigit then
        match tailMinuteMer rest with
        | some (mn, m) => some (10 * digVal c1 + digVal c2, mn, m)
        | none => (tailMinuteMer (c2 :: rest)).map (fun p => (digVal c1, p.1, p.2))
      else
        (tailMinuteMer (c2 :: rest)).map (fun p => (digVal c1, p.1, p.2))
    else none

/-- 12-hour conversion: `pm` adds 12 to hours `< 12`, `am` maps hour `12` to
`0`; then minutes of day. -/
def clockMinutes (hour minute : Nat) (mer : Option Meridiem) : Int :=
  let h : Nat :=
    match mer with
    | some .pm => if hour < 12 then hour + 12 else hour
    | some .am => if hour = 12 then 0 else hour
    | none => hour
  ((h * 60 + minute : Nat) : Int)

/-- `lower.includes(needle)`. -/
def hasSub (needle : List Char) : List Char → Bool
  | [] => needle.isEmpty
  | c :: rest => needle.isPrefixOf (c :: rest) || hasSub needle rest

/-- The inner `parseTimePreference` of `scheduleLocally`: free preference text
to a preferred start minute plus an exact flag, or `none`. -/
def parseTimePreference (pref : String) : Option ParsedPref :=
  let cs := pref.data.map Char.toLower
  match findPat ['a', 't', ' '] cs with
  | some (h, mn, mer) => some ⟨clockMinutes h mn mer, true⟩
  | none =>
    match matchStandalone cs with
    | some (h, mn, mer) => some ⟨clockMinutes h mn (some mer), true⟩
    | none =>
      match findPat ['b', 'e', 'f', 'o', 'r', 'e', ' '] cs with
      | some _ => some ⟨8 * 60, false⟩
      | none =>
        match findPat ['a', 'f', 't', 'e', 'r', ' '] cs with
        | some (h, mn, mer) => some ⟨clockMinutes h mn mer, false⟩
        | none =>
          if hasSub "morning".data cs || hasSub "first thing".data cs then
            some ⟨8 * 60, false⟩
          else if hasSub "after lunch".data cs then some ⟨13 * 60, false⟩
          else if hasSub "afternoon".data cs then some ⟨14 * 60, false⟩
          else if hasSub "evening".data cs then some ⟨17 * 60, false⟩
          else if hasSub "noon".data cs || hasSub "midday".data cs then
            some ⟨12 * 60, false⟩
          else none

/-- `if (todo.timePreference) { parseTimePreference(todo.timePreference) }`:
an absent preference, and the falsy empty string, parse to `none`. -/
def parsedPrefOf (t : TodoItem) : Option ParsedPref :=
  match t.timePreference with
  | some s => if s = "" then none else parseTimePreference s
  | none => none

/-- End of the scheduling window, 22:00. -/
def endOfDay : Int := 22 * 60

/-- `Math.ceil(x / 15) * 15` for an integer `x`. -/
def ceil15 (x : Int) : Int := (x + 14) / 15 * 15

/-- The initial cursor: the current time rounded up to the next 15-minute
boundary when the target date is today, otherwise 8:00. -/
def initCursor (targetDate : Int) (now : DateTime) : Int :=
  if targetDate = now.day then ceil15 (now.minuteOfDay : Int) else 8 * 60

/-- Occupied intervals from the existing events whose start date falls on the
target date, keeping only hour/minute of each event's start and end, sorted by
start. -/
def buildOccupied (existingEvents : List CalendarEvent) (targetDate : Int) : List Iv :=
  ((existingEvents.filter (fun e => e.start.day == targetDate)).map
      (fun e => Iv.mk (e.start.minuteOfDay : Int) (e.stop.minuteOfDay : Int))).insertionSort
    (fun a b => a.start ≤ b.start)

/-- `occupied.some((o) => s < o.end && e > o.start)`. -/
def hasConflict (occupied : List Iv) (s e : Int) : Bool :=
  occupied.any fun o => decide (s < o.stop) && decide (e > o.start)

/-- `occupied.push(iv); occupied.sort((a, b) => a.start - b.start)`. -/
def insertIv (occupied : List Iv) (iv : Iv) : List Iv :=
  (occupied ++ [iv]).insertionSort (fun a b => a.start ≤ b.start)

/-- A task routed to the pinned pass, carrying its exact anchor
(`{...todo, pinnedStart}`). -/
structure PinnedTask where
  todo : TodoItem
  pinnedStart : Int
  deriving Repr, DecidableEq

/-- The partition of the input tasks: tasks whose preference parses as exact go
to the pinned list (with their anchor), all others stay flexible; both lists
keep the input order. -/
def partitionTasks : List TodoItem → List PinnedTask × List TodoItem
  | [] => ([], [])
  | t :: ts =>
    match parsedPrefOf t with
    | some p =>
      if p.exact then (⟨t, p.start⟩ :: (partitionTasks ts).1, (partitionTasks ts).2)
      else ((partitionTasks ts).1, t :: (partitionTasks ts).2)
    | none => ((partitionTasks ts).1, t :: (partitionTasks ts).2)

/-- Scheduler state: the occupied intervals, the committed results in commit
order, and the shared cursor. -/
structure SchedState where
  occupied : List Iv
  results : List ScheduleResult
  cursor : Int
  deriving Repr, DecidableEq

/-- One iteration of the pinned pass: commit at the anchor iff the window ends
by 22:00 and has no conflict; otherwise drop the task (no alternate slot). -/
def pinnedStep (st : SchedState) (pt : PinnedTask) : SchedState :=
  let slotStart := pt.pinnedStart
  let slotEnd := slotStart + pt.todo.duration
  if slotEnd > endOfDay then st
  else if hasConflict st.occupied slotStart slotEnd then st
  else
    { st with
      results := st.results ++ [⟨pt.todo.id, pt.todo.title, slotStart, pt.todo.duration⟩]
      occupied := insertIv st.occupied ⟨slotStart, slotEnd⟩ }

/-- The pinned pass over the exact tasks, in input order. -/
def pinnedLoop (st : SchedState) : List PinnedTask → SchedState
  | [] => st
  | pt :: pts => pinnedLoop (pinnedStep st pt) pts

/-- The `while (searchStart + duration <= endOfDay)` probe with explicit fuel;
the fuel shrinks by one per 15-minute step and so outlasts the loop. -/
def probeGo (occupied : List Iv) (duration : Int) : Nat → Int → Option Int
  | 0, _ => none
  | fuel + 1, searchStart =>
    if searchStart + duration ≤ endOfDay then
      if hasConflict occupied searchStart (searchStart + duration) then
        probeGo occupied duration fuel (searchStart + 15)
      else some searchStart
    else none

/-- Linear probe for the first conflict-free 15-minute-stepped slot at or after
`searchStart` that still ends by 22:00. -/
def probe (occupied : List Iv) (duration : Int) (searchStart : Int) : Option Int :=
  probeGo occupied duration (1321 - duration - searchStart).toNat searchStart

/-- The initial search minute of a flexible task: the preference anchor (when
any) clamped below by the cursor, rounded up to a 15-minute slot. -/
def initialSearch (cursor : Int) (t : TodoItem) : Int :=
  let preferredStart : Option Int := (parsedPrefOf t).map (·.start)
  let s0 :=
    match preferredStart with
    | some p => max p cursor
    | none => cursor
  ceil15 s0

/-- One iteration of the flexible pass: probe from `initialSearch`; on success
commit, insert the interval, and advance the cursor past a 5-minute break;
the boolean is the loop's `scheduled` flag. -/
def flexStep (st : SchedState) (t : TodoItem) : SchedState × Bool :=
  let duration := t.duration
  let searchStart := initialSearch st.cursor t
  match probe st.occupied duration searchStart with
  | some s =>
    ({ occupied := insertIv st.occupied ⟨s, s + duration⟩
       results := st.results ++ [⟨t.id, t.title, s, duration⟩]
       cursor := s + duration + 5 }, true)
  | none => (st, false)

/-- The flexible pass: tasks in priority order; the first task that finds no
slot stops the whole pass (`if (!scheduled) break`). -/
def flexLoop (st : SchedState) : List TodoItem → SchedState
  | [] => st
  | t :: ts =>
    let (st2, scheduled) := flexStep st t
    if scheduled then flexLoop st2 ts else st2

/-- Stable ascending sort by priority
(`[...flexTasks].sort((a, b) => a.priority - b.priority)`). -/
def sortByPriority (ts : List TodoItem) : List TodoItem :=
  ts.insertionSort (fun a b => a.priority ≤ b.priority)

/-- `scheduleLocally(todos, existingEvents, targetDate)` with the wall clock
`now` made explicit: pinned pass first (input order), then the flexible pass in
priority order, returning the committed assignments in commit order. -/
def scheduleLocally (todos : List TodoItem) (existingEvents : List CalendarEvent)
    (targetDate : Int) (now : DateTime) : List ScheduleResult :=
  let cursor := initCursor targetDate now
  let occupied := buildOccupied existingEvents targetDate
  let (exactTasks, flexTasks) := partitionTasks todos
  let st1 := pinnedLoop ⟨occupied, [], cursor⟩ exactTasks
  let sorted := sortByPriority flexTasks
  (flexLoop st1 sorted).results

/-! ## Basic facts about the probe and the conflict test -/

theorem ceil15_ge (x : Int) : x ≤ ceil15 x := by
  unfold ceil15; omega

theorem ceil15_mono {x y : Int} (h : x ≤ y) : ceil15 x ≤ ceil15 y := by
  unfold ceil15; omega

theorem initialSearch_ge (c : Int) (t : TodoItem) : c ≤ initialSearch c t := by
  unfold initialSearch
  refine le_trans ?_ (ceil15_ge _)
  cases (parsedPrefOf t).map (·.start) with
  | none => simp
  | some p => simp [le_max_right]

theorem hasConflict_eq_false_iff {occ : List Iv} {s e : Int} :
    hasConflict occ s e = false ↔ ∀ o ∈ occ, ¬(s < o.stop ∧ o.start < e) := by
  simp [hasConflict, List.any_eq_false, and_comm]

theorem probeGo_ge {occ : List Iv} {d : Int} {fuel : Nat} {s x : Int}
    (h : probeGo occ d fuel s = some x) : s ≤ x := by
  induction fuel generalizing s with
  | zero => simp [probeGo] at h
  | succ n ih =>
    unfold probeGo at h
    split at h
    · split at h
      · have := ih h; omega
      · simp at h; omega
    · simp at h

theorem probeGo_le_end {occ : List Iv} {d : Int} {fuel : Nat} {s x : Int}
    (h : probeGo occ d fuel s = some x) : x + d ≤ endOfDay := by
  induction fuel generalizing s with
  | zero => simp [probeGo] at h
  | succ n ih =>
    unfold probeGo at h
    split at h
    · split at h
      · exact ih h
      · simp at h; omega
    · simp at h

theorem probeGo_noConflict {occ : List Iv} {d : Int} {fuel : Nat} {s x : Int}
    (h : probeGo occ d fuel s = some x) : hasConflict occ x (x + d) = false := by
  induction fuel generalizing s with
  | zero => simp [probeGo] at h
  | succ n ih =>
    unfold probeGo at h
    split at h
    · split at h
      · exact ih h
      · rename_i hc
        simp only [Option.some.injEq] at h
        subst h
        simpa using hc
    · simp at h

theorem probe_ge {occ : List Iv} {d s x : Int} (h : probe occ d s = some x) : s ≤ x :=
  probeGo_ge h

theorem probe_le_end {occ : List Iv} {d s x : Int} (h : probe occ d s = some x) :
    x + d ≤ endOfDay :=
  probeGo_le_end h

theorem probe_noConflict {occ : List Iv} {d s x : Int} (h : probe occ d s = some x) :
    hasConflict occ x (x + d) = false :=
  probeGo_noConflict h

/-- When the very first candidate slot fits, the probe returns it at once. -/
theorem probe_first_fit {occ : List Iv} {d s : Int} (hend : s + d ≤ endOfDay)
    (hc : hasConflict occ s (s + d) = false) : probe occ d s = some s := by
  unfold probe
  have hpos : (1321 - d - s).toNat ≠ 0 := by unfold endOfDay at hend; omega
  obtain ⟨n, hn⟩ := Nat.exists_eq_succ_of_ne_zero hpos
  rw [hn]
  unfold probeGo
  rw [if_pos hend, hc]
  rfl

theorem mem_insertIv {occ : List Iv} {iv a : Iv} :
    a ∈ insertIv occ iv ↔ a ∈ occ ∨ a = iv := by
  unfold insertIv
  rw [List.mem_insertionSort]
  simp

/-! ## C5, C6, C7, C9, C10 -/

/-- C5: the standalone-time rule is claimed to accept `H[:MM]` with an
OPTIONAL am/pm suffix, and the code's own comment lists `"14:00"` as an
example; but the anchored pattern makes the am/pm suffix mandatory, so
`"14:00"` parses to no preference while `"2pm"` and `"9:30am"` parse exactly.
This theorem evaluates the code at the failing input. -/
theorem c5_standalone_requires_meridiem :
    parseTimePreference "14:00" = none ∧
    parseTimePreference "2pm" = some ⟨840, true⟩ ∧
    parseTimePreference "9:30am" = some ⟨570, true⟩ := by
  decide

/-- C6 counterexample: a zero-duration task with no preference, no events and
a future target date is NOT absent from the plan — it is committed at 8:00
with a zero-length interval, contradicting the claim. -/
theorem c6_zero_duration_scheduled_cex :
    scheduleLocally [⟨"z", "Z", 0, 0, none, none⟩] [] 1 ⟨0, 0⟩ =
      [⟨"z", "Z", 480, 0⟩] := by
  decide

/-- C6 (amended): the scheduler performs no duration validation: a single
flexible task with non-positive duration, no preference and no existing events
on a future target date is committed at 8:00 with a zero- or negative-length
interval rather than being dropped. -/
theorem c6_nonpositive_duration_scheduled (t : TodoItem) (targetDate : Int)
    (now : DateTime) (hdur : t.duration ≤ 0) (hpref : t.timePreference = none)
    (hfut : targetDate ≠ now.day) :
    scheduleLocally [t] [] targetDate now = [⟨t.id, t.title, 480, t.duration⟩] := by
  have hparse : parsedPrefOf t = none := by simp [parsedPrefOf, hpref]
  have hpart : partitionTasks [t] = ([], [t]) := by simp [partitionTasks, hparse]
  have hcur : initCursor targetDate now = 480 := by simp [initCursor, hfut]
  have hinit : initialSearch 480 t = 480 := by
    simp [initialSearch, hparse]; decide
  have hprobe : probe [] t.duration 480 = some 480 :=
    probe_first_fit (by unfold endOfDay; omega) rfl
  simp [scheduleLocally, hpart, hcur, sortByPriority, List.insertionSort,
    List.orderedInsert, pinnedLoop, flexLoop, flexStep, hinit, buildOccupied,
    hprobe]

/-- Witness for `c6_nonpositive_duration_scheduled` at a concrete
negative-duration task. -/
theorem c6_nonpositive_duration_scheduled_witness :
    scheduleLocally [⟨"n", "N", -30, 0, none, none⟩] [] 2 ⟨0, 0⟩ =
      [⟨"n", "N", 480, -30⟩] :=
  c6_nonpositive_duration_scheduled ⟨"n", "N", -30, 0, none, none⟩ 2 ⟨0, 0⟩
    (by decide) rfl (by decide)

/-- C7: preference parsing is total and never fails the caller — for every
input string it returns either a parsed preference or `none`. -/
theorem c7_parse_total (s : String) :
    parseTimePreference s = none ∨ ∃ p, parseTimePreference s = some p := by
  cases h : parseTimePreference s
  · exact Or.inl rfl
  · exact Or.inr ⟨_, rfl⟩

/-- C9: the exact-time rule matches `at` as a substring, not as a standalone
word: in `"chat 3pm"` the match starts inside `chat`, the preference parses as
exact 15:00, and the task is pinned at 900. -/
theorem c9_at_substring_match :
    parseTimePreference "chat 3pm" = some ⟨900, true⟩ ∧
    scheduleLocally [⟨"c", "C", 30, 5, some "chat 3pm", none⟩] [] 2 ⟨1, 0⟩ =
      [⟨"c", "C", 900, 30⟩] := by
  decide

/-- C10: an event that begins the previous day (23:00) and runs to 10:00 of
the target day contributes no occupied interval (the filter looks only at the
start's date), and the returned assignment `[480, 540)` overlaps the event's
actual presence `[0, 600)` on the target day. -/
theorem c10_previous_day_event_ignored :
    buildOccupied [⟨⟨0, 1380⟩, ⟨1, 600⟩⟩] 1 = [] ∧
    scheduleLocally [⟨"t", "T", 60, 0, none, none⟩] [⟨⟨0, 1380⟩, ⟨1, 600⟩⟩] 1 ⟨0, 0⟩ =
      [⟨"t", "T", 480, 60⟩] ∧
    ∀ r ∈ scheduleLocally [⟨"t", "T", 60, 0, none, none⟩]
        [⟨⟨0, 1380⟩, ⟨1, 600⟩⟩] 1 ⟨0, 0⟩,
      r.startMinute < 600 ∧ (0 : Int) < r.startMinute + r.duration := by
  decide

/-! ## C1: no two output assignments overlap -/

/-- The busy interval committed for an assignment. -/
def resIv (r : ScheduleResult) : Iv := ⟨r.startMinute, r.startMinute + r.duration⟩

/-- The claimed pairwise property: `start_A < end_B && start_B < end_A` is
false. -/
def separated (A B : ScheduleResult) : Prop :=
  ¬(A.startMinute < B.startMinute + B.duration ∧
    B.startMinute < A.startMinute + A.duration)

theorem separated_symm {A B : ScheduleResult} (h : separated A B) : separated B A := by
  unfold separated at *
  tauto

/-- Invariant carried through both passes: every committed interval is held in
the occupied set, and the committed results are pairwise separated. -/
def InvState (st : SchedState) : Prop :=
  (∀ r ∈ st.results, resIv r ∈ st.occupied) ∧ st.results.Pairwise separated

theorem inv_commit {occ : List Iv} {rs : List ScheduleResult} {s d : Int}
    (h1 : ∀ r ∈ rs, resIv r ∈ occ) (h2 : rs.Pairwise separated)
    (hc : hasConflict occ s (s + d) = false) (tid ttl : String) :
    (∀ r ∈ rs ++ [ScheduleResult.mk tid ttl s d],
        resIv r ∈ insertIv occ (Iv.mk s (s + d))) ∧
      (rs ++ [ScheduleResult.mk tid ttl s d]).Pairwise separated := by
  have hsep : ∀ a ∈ rs, separated a (ScheduleResult.mk tid ttl s d) := by
    intro a ha
    have hmem := h1 a ha
    have := (hasConflict_eq_false_iff.mp hc) (resIv a) hmem
    unfold resIv at this
    unfold separated
    simp only at this ⊢
    tauto
  constructor
  · intro r hr
    rcases List.mem_append.mp hr with h | h
    · exact mem_insertIv.mpr (Or.inl (h1 r h))
    · simp only [List.mem_singleton] at h
      subst h
      exact mem_insertIv.mpr (Or.inr rfl)
  · refine List.pairwise_append.mpr ⟨h2, List.pairwise_singleton _ _, ?_⟩
    intro a ha b hb
    simp only [List.mem_singleton] at hb
    subst hb
    exact hsep a ha

theorem inv_pinnedStep {st : SchedState} (hst : InvState st) (pt : PinnedTask) :
    InvState (pinnedStep st pt) := by
  simp only [pinnedStep]
  split
  · exact hst
  · split
    · exact hst
    · rename_i hc
      simp only [Bool.not_eq_true] at hc
      exact inv_commit hst.1 hst.2 hc _ _

theorem inv_pinnedLoop {st : SchedState} (hst : InvState st) (l : List PinnedTask) :
    InvState (pinnedLoop st l) := by
  induction l generalizing st with
  | nil => exact hst
  | cons pt pts ih => exact ih (inv_pinnedStep hst pt)

theorem inv_flexStep {st : SchedState} (hst : InvState st) (t : TodoItem) :
    InvState (flexStep st t).1 := by
  simp only [flexStep]
  cases hp : probe st.occupied t.duration (initialSearch st.cursor t) with
  | none => exact hst
  | some s => exact inv_commit hst.1 hst.2 (probe_noConflict hp) _ _

theorem inv_flexLoop {st : SchedState} (hst : InvState st) (l : List TodoItem) :
    InvState (flexLoop st l) := by
  induction l generalizing st with
  | nil => exact hst
  | cons t ts ih =>
    have h2 := inv_flexStep hst t
    unfold flexLoop
    rcases hfs : flexStep st t with ⟨st2, sched⟩
    rw [hfs] at h2
    simp only at h2 ⊢
    cases sched with
    | false => simpa using h2
    | true => simpa using ih h2

theorem plan_pairwise_separated (todos : List TodoItem)
    (existingEvents : List CalendarEvent) (targetDate : Int) (now : DateTime) :
    (scheduleLocally todos existingEvents targetDate now).Pairwise separated := by
  unfold scheduleLocally
  rcases hp : partitionTasks todos with ⟨es, fs⟩
  simp only
  have h0 : InvState ⟨buildOccupied existingEvents targetDate, [],
      initCursor targetDate now⟩ := by
    constructor
    · intro r hr; simp at hr
    · exact List.Pairwise.nil
  exact (inv_flexLoop (inv_pinnedLoop h0 es) (sortByPriority fs)).2

/-- C1: for every run and every pair of distinct assignments `A`, `B` of the
returned plan, `start_A < end_B && start_B < end_A` is false — no two output
assignments overlap. -/
theorem c1_no_overlap (todos : List TodoItem) (existingEvents : List CalendarEvent)
    (targetDate : Int) (now : DateTime) {i j : Nat}
    (hi : i < (scheduleLocally todos existingEvents targetDate now).length)
    (hj : j < (scheduleLocally todos existingEvents targetDate now).length)
    (hne : i ≠ j) :
    ¬(((scheduleLocally todos existingEvents targetDate now).get ⟨i, hi⟩).startMinute <
        ((scheduleLocally todos existingEvents targetDate now).get ⟨j, hj⟩).startMinute +
          ((scheduleLocally todos existingEvents targetDate now).get ⟨j, hj⟩).duration ∧
      ((scheduleLocally todos existingEvents targetDate now).get ⟨j, hj⟩).startMinute <
        ((scheduleLocally todos existingEvents targetDate now).get ⟨i, hi⟩).startMinute +
          ((scheduleLocally todos existingEvents targetDate now).get ⟨i, hi⟩).duration) := by
  have hp := plan_pairwise_separated todos existingEvents targetDate now
  have hget := List.pairwise_iff_get.mp hp
  rcases Nat.lt_or_ge i j with hlt | hge
  · exact hget ⟨i, hi⟩ ⟨j, hj⟩ hlt
  · have hlt : j < i := lt_of_le_of_ne hge (fun h => hne h.symm)
    exact separated_symm (hget ⟨j, hj⟩ ⟨i, hi⟩ hlt)

/-- Witness for `c1_no_overlap` on a concrete two-assignment run. -/
theorem c1_no_overlap_witness :
    ¬(((scheduleLocally
          [⟨"a", "A", 30, 0, none, none⟩, ⟨"b", "B", 30, 1, none, none⟩]
          [] 5 ⟨5, 540⟩).get ⟨0, by decide⟩).startMinute <
        ((scheduleLocally
          [⟨"a", "A", 30, 0, none, none⟩, ⟨"b", "B", 30, 1, none, none⟩]
          [] 5 ⟨5, 540⟩).get ⟨1, by decide⟩).startMinute +
          ((scheduleLocally
          [⟨"a", "A", 30, 0, none, none⟩, ⟨"b", "B", 30, 1, none, none⟩]
          [] 5 ⟨5, 540⟩).get ⟨1, by decide⟩).duration ∧
      ((scheduleLocally
          [⟨"a", "A", 30, 0, none, none⟩, ⟨"b", "B", 30, 1, none, none⟩]
          [] 5 ⟨5, 540⟩).get ⟨1, by decide⟩).startMinute <
        ((scheduleLocally
          [⟨"a", "A", 30, 0, none, none⟩, ⟨"b", "B", 30, 1, none, none⟩]
          [] 5 ⟨5, 540⟩).get ⟨0, by decide⟩).startMinute +
          ((scheduleLocally
          [⟨"a", "A", 30, 0, none, none⟩, ⟨"b", "B", 30, 1, none, none⟩]
          [] 5 ⟨5, 540⟩).get ⟨0, by decide⟩).duration) :=
  c1_no_overlap
    [⟨"a", "A", 30, 0, none, none⟩, ⟨"b", "B", 30, 1, none, none⟩]
    [] 5 ⟨5, 540⟩ (by decide) (by decide) (by decide)

/-! ## C2: the today floor -/

theorem flexStep_false {st st2 : SchedState} {t : TodoItem}
    (h : flexStep st t = (st2, false)) : st2 = st := by
  simp only [flexStep] at h
  cases hp : probe st.occupied t.duration (initialSearch st.cursor t) with
  | none => rw [hp] at h; exact (Prod.mk.injEq .. ▸ h).1.symm
  | some s => rw [hp] at h; simp at h

theorem flexStep_true {st st2 : SchedState} {t : TodoItem}
    (h : flexStep st t = (st2, true)) :
    ∃ s, probe st.occupied t.duration (initialSearch st.cursor t) = some s ∧
      st2 = ⟨insertIv st.occupied ⟨s, s + t.duration⟩,
        st.results ++ [⟨t.id, t.title, s, t.duration⟩], s + t.duration + 5⟩ := by
  simp only [flexStep] at h
  cases hp : probe st.occupied t.duration (initialSearch st.cursor t) with
  | none => rw [hp] at h; simp at h
  | some s =>
    rw [hp] at h
    exact ⟨s, rfl, (Prod.mk.injEq .. ▸ h).1.symm⟩

theorem pinnedStep_cursor (st : SchedState) (pt : PinnedTask) :
    (pinnedStep st pt).cursor = st.cursor := by
  simp only [pinnedStep]
  split
  · rfl
  · split <;> rfl

theorem pinnedLoop_cursor (st : SchedState) (l : List PinnedTask) :
    (pinnedLoop st l).cursor = st.cursor := by
  induction l generalizing st with
  | nil => rfl
  | cons pt pts ih => rw [pinnedLoop, ih, pinnedStep_cursor]

theorem partition_flex_mem {ts : List TodoItem} {t : TodoItem}
    (h : t ∈ (partitionTasks ts).2) : t ∈ ts := by
  induction ts with
  | nil => simp [partitionTasks] at h
  | cons u us ih =>
    simp only [partitionTasks] at h
    cases hp : parsedPrefOf u with
    | none =>
      rw [hp] at h
      dsimp only at h
      rcases List.mem_cons.mp h with h | h
      · exact h ▸ List.mem_cons_self _ _
      · exact List.mem_cons_of_mem _ (ih h)
    | some p =>
      rw [hp] at h
      dsimp only at h
      by_cases hpe : p.exact
      · rw [if_pos hpe] at h
        exact List.mem_cons_of_mem _ (ih h)
      · rw [if_neg hpe] at h
        rcases List.mem_cons.mp h with h | h
        · exact h ▸ List.mem_cons_self _ _
        · exact List.mem_cons_of_mem _ (ih h)

theorem mem_sortByPriority {ts : List TodoItem} {t : TodoItem} :
    t ∈ sortByPriority ts ↔ t ∈ ts :=
  List.mem_insertionSort _

/-- The flexible pass only appends results, and every appended result starts at
or after any lower bound on the entry cursor, provided the processed tasks have
positive durations (which keeps the cursor from moving backwards). -/
theorem flexLoop_results_floor (l : List TodoItem) (st : SchedState) (c0 : Int)
    (hc : c0 ≤ st.cursor) (hpos : ∀ t ∈ l, 0 < t.duration) :
    ∃ rest, (flexLoop st l).results = st.results ++ rest ∧
      ∀ r ∈ rest, c0 ≤ r.startMinute := by
  induction l generalizing st with
  | nil => exact ⟨[], by simp [flexLoop], by simp⟩
  | cons t ts ih =>
    unfold flexLoop
    rcases hfs : flexStep st t with ⟨st2, sched⟩
    simp only
    cases sched with
    | false =>
      rw [flexStep_false hfs]
      exact ⟨[], by simp, by simp⟩
    | true =>
      obtain ⟨s, hp, hst2⟩ := flexStep_true hfs
      have hs : st.cursor ≤ s := le_trans (initialSearch_ge _ _) (probe_ge hp)
      have hcur2 : c0 ≤ st2.cursor := by
        rw [hst2]
        have := hpos t (List.mem_cons_self _ _)
        simp only
        omega
      obtain ⟨rest2, hres, hfl⟩ :=
        ih st2 hcur2 (fun u hu => hpos u (List.mem_cons_of_mem _ hu))
      refine ⟨⟨t.id, t.title, s, t.duration⟩ :: rest2, ?_, ?_⟩
      · rw [if_pos rfl, hres, hst2]
        simp
      · intro r hr
        rcases List.mem_cons.mp hr with h | h
        · subst h
          simp only
          omega
        · exact hfl r h

/-- C2 counterexample: the claim fails on the code in two ways. A pinned task
`"at 2pm"` is committed at 840 although now = 900 (the pinned pass never
consults the cursor); and with a negative-duration flexible task the cursor
moves backwards, so a later flexible task is committed at 390 although
now = 480. -/
theorem c2_today_floor_cex :
    ((5 : Int) = (DateTime.mk 5 900).day ∧
      ∃ r ∈ scheduleLocally [⟨"a", "A", 30, 7, some "at 2pm", none⟩] [] 5 ⟨5, 900⟩,
        r.startMinute < ceil15 ((DateTime.mk 5 900).minuteOfDay : Int)) ∧
    ((5 : Int) = (DateTime.mk 5 480).day ∧
      ∃ r ∈ scheduleLocally
          [⟨"n", "N", -100, 0, none, none⟩, ⟨"m", "M", 30, 1, none, none⟩]
          [] 5 ⟨5, 480⟩,
        r.startMinute < ceil15 ((DateTime.mk 5 480).minuteOfDay : Int)) := by
  decide

/-- C2 (amended): when the target date is today and every task duration is
positive, every assignment committed by the FLEXIBLE pass starts at or after
`ceil(nowMinutes / 15) * 15`; assignments of the pinned pass are exempt (the
pinned pass places a task at its anchor regardless of the current time). -/
theorem c2_today_floor_amended (todos : List TodoItem)
    (existingEvents : List CalendarEvent) (targetDate : Int) (now : DateTime)
    (htoday : targetDate = now.day) (hpos : ∀ t ∈ todos, 0 < t.duration) :
    ∃ rest,
      scheduleLocally todos existingEvents targetDate now =
        (pinnedLoop ⟨buildOccupied existingEvents targetDate, [],
          initCursor targetDate now⟩ (partitionTasks todos).1).results ++ rest ∧
      ∀ r ∈ rest, ceil15 (now.minuteOfDay : Int) ≤ r.startMinute := by
  unfold scheduleLocally
  rcases hp : partitionTasks todos with ⟨es, fs⟩
  simp only
  set st1 := pinnedLoop ⟨buildOccupied existingEvents targetDate, [],
    initCursor targetDate now⟩ es with hst1
  have hcur : st1.cursor = ceil15 (now.minuteOfDay : Int) := by
    rw [hst1, pinnedLoop_cursor]
    simp [initCursor, htoday]
  have hflexpos : ∀ t ∈ sortByPriority fs, 0 < t.duration := by
    intro t ht
    exact hpos t (partition_flex_mem (hp ▸ mem_sortByPriority.mp ht))
  exact flexLoop_results_floor (sortByPriority fs) st1 _ (le_of_eq hcur.symm) hflexpos

/-- Witness for `c2_today_floor_amended` at a concrete today run. -/
theorem c2_today_floor_amended_witness :
    ∃ rest,
      scheduleLocally [⟨"a", "A", 30, 0, none, none⟩] [] 5 ⟨5, 540⟩ =
        (pinnedLoop ⟨buildOccupied [] 5, [], initCursor 5 ⟨5, 540⟩⟩
          (partitionTasks [⟨"a", "A", 30, 0, none, none⟩]).1).results ++ rest ∧
      ∀ r ∈ rest, ceil15 ((540 : Nat) : Int) ≤ r.startMinute :=
  c2_today_floor_amended [⟨"a", "A", 30, 0, none, none⟩] [] 5 ⟨5, 540⟩ rfl
    (by decide)

/-! ## C4: ten 180-minute tasks, at most 4 fit -/

/-- Upper bound on how many 180-minute commits the flexible pass can still
make from cursor `c`: each commit lands at some `s ≥ c` with `s + 180 ≤ 1320`
and pushes the cursor to `s + 185`. -/
def commitBound (c : Int) : Nat :=
  if c ≤ 1140 then (1140 - c).toNat / 185 + 1 else 0

theorem commitBound_step {c s : Int} (hcs : c ≤ s) (hs : s ≤ 1140) :
    1 + commitBound (s + 185) ≤ commitBound c := by
  unfold commitBound
  split <;> split <;> omega

theorem flexLoop_uniform_len (l : List TodoItem) (st : SchedState)
    (hu : ∀ t ∈ l, t.duration = 180) :
    (flexLoop st l).results.length ≤ st.results.length + commitBound st.cursor := by
  induction l generalizing st with
  | nil =>
    simp only [flexLoop]
    omega
  | cons t ts ih =>
    unfold flexLoop
    rcases hfs : flexStep st t with ⟨st2, sched⟩
    simp only
    cases sched with
    | false =>
      rw [flexStep_false hfs]
      simp only [Bool.false_eq_true, if_false]
      omega
    | true =>
      obtain ⟨s, hp, hst2⟩ := flexStep_true hfs
      have hdur : t.duration = 180 := hu t (List.mem_cons_self _ _)
      have hs1 : st.cursor ≤ s := le_trans (initialSearch_ge _ _) (probe_ge hp)
      have hs2 : s ≤ 1140 := by
        have := probe_le_end hp
        unfold endOfDay at this
        omega
      have hlen2 : st2.results.length = st.results.length + 1 := by
        rw [hst2]; simp
      have hcur2 : st2.cursor = s + 185 := by
        rw [hst2]; dsimp only; omega
      have hbound := commitBound_step hs1 hs2
      have hih := ih st2 (fun u hu' => hu u (List.mem_cons_of_mem _ hu'))
      rw [hcur2, hlen2] at hih
      rw [if_pos rfl]
      omega

theorem partition_all_flex {ts : List TodoItem}
    (h : ∀ t ∈ ts, parsedPrefOf t = none) : partitionTasks ts = ([], ts) := by
  induction ts with
  | nil => rfl
  | cons u us ih =>
    have hu := h u (List.mem_cons_self _ _)
    have hus := ih (fun t ht => h t (List.mem_cons_of_mem _ ht))
    simp [partitionTasks, hu, hus]

theorem length_filter_split (l : List α) (p : α → Bool) :
    (l.filter p).length + (l.filter (fun a => !p a)).length = l.length := by
  induction l with
  | nil => rfl
  | cons a as ih =>
    cases hpa : p a <;> simp [List.filter_cons, hpa] <;> omega

/-- C4: with ten flexible 180-minute tasks (no preferences, distinct ids),
no existing events and a non-today target date, at most 4 tasks appear in the
plan and at least 6 of the ten have no assignment in it. -/
theorem c4_ten_tasks_at_most_four (todos : List TodoItem) (targetDate : Int)
    (now : DateTime) (hlen : todos.length = 10)
    (hu : ∀ t ∈ todos, t.duration = 180 ∧ t.timePreference = none)
    (hnodup : (todos.map (·.id)).Nodup) (hfut : targetDate ≠ now.day) :
    (scheduleLocally todos [] targetDate now).length ≤ 4 ∧
    6 ≤ (todos.filter (fun t =>
      !((scheduleLocally todos [] targetDate now).any
        (fun r => r.todoId == t.id)))).length := by
  have hparse : ∀ t ∈ todos, parsedPrefOf t = none := by
    intro t ht
    simp [parsedPrefOf, (hu t ht).2]
  have hpart := partition_all_flex hparse
  have hcur : initCursor targetDate now = 480 := by simp [initCursor, hfut]
  have hplan : scheduleLocally todos [] targetDate now =
      (flexLoop ⟨[], [], 480⟩ (sortByPriority todos)).results := by
    unfold scheduleLocally
    rw [hpart]
    simp only [pinnedLoop, hcur]
    rfl
  have hudur : ∀ t ∈ sortByPriority todos, t.duration = 180 := by
    intro t ht
    exact (hu t (mem_sortByPriority.mp ht)).1
  have hlen4 : (scheduleLocally todos [] targetDate now).length ≤ 4 := by
    rw [hplan]
    have := flexLoop_uniform_len (sortByPriority todos) ⟨[], [], 480⟩ hudur
    have hcb : commitBound 480 = 4 := by decide
    simpa [hcb] using this
  refine ⟨hlen4, ?_⟩
  set P := scheduleLocally todos [] targetDate now with hP
  set p : TodoItem → Bool := fun t => P.any (fun r => r.todoId == t.id) with hp
  have hin : (todos.filter p).length ≤ 4 := by
    have hsubl : (todos.filter p).Sublist todos := List.filter_sublist todos
    have hnd : ((todos.filter p).map (·.id)).Nodup :=
      List.Nodup.sublist (hsubl.map _) hnodup
    have hsub : ((todos.filter p).map (·.id)).toFinset ⊆
        (P.map (·.todoId)).toFinset := by
      intro x hx
      rw [List.mem_toFinset] at hx ⊢
      obtain ⟨t, ht, hxt⟩ := List.mem_map.mp hx
      have hpt := List.of_mem_filter ht
      rw [hp] at hpt
      simp only [List.any_eq_true, beq_iff_eq] at hpt
      obtain ⟨r, hr, hrt⟩ := hpt
      exact List.mem_map.mpr ⟨r, hr, by rw [hrt, hxt]⟩
    calc (todos.filter p).length
        = ((todos.filter p).map (·.id)).length := (List.length_map _ _).symm
      _ = ((todos.filter p).map (·.id)).toFinset.card :=
          (List.toFinset_card_of_nodup hnd).symm
      _ ≤ (P.map (·.todoId)).toFinset.card := Finset.card_le_card hsub
      _ ≤ (P.map (·.todoId)).length := List.toFinset_card_le _
      _ = P.length := List.length_map _ _
      _ ≤ 4 := hlen4
  have hsplit := length_filter_split todos p
  show 6 ≤ (todos.filter (fun a => !p a)).length
  omega

/-- Witness for `c4_ten_tasks_at_most_four` on ten concrete tasks. -/
theorem c4_ten_tasks_at_most_four_witness :
    (scheduleLocally
      [⟨"t0", "T", 180, 0, none, none⟩, ⟨"t1", "T", 180, 1, none, none⟩,
       ⟨"t2", "T", 180, 2, none, none⟩, ⟨"t3", "T", 180, 3, none, none⟩,
       ⟨"t4", "T", 180, 4, none, none⟩, ⟨"t5", "T", 180, 5, none, none⟩,
       ⟨"t6", "T", 180, 6, none, none⟩, ⟨"t7", "T", 180, 7, none, none⟩,
       ⟨"t8", "T", 180, 8, none, none⟩, ⟨"t9", "T", 180, 9, none, none⟩]
      [] 3 ⟨0, 0⟩).length ≤ 4 ∧
    6 ≤ ([⟨"t0", "T", 180, 0, none, none⟩, ⟨"t1", "T", 180, 1, none, none⟩,
       ⟨"t2", "T", 180, 2, none, none⟩, ⟨"t3", "T", 180, 3, none, none⟩,
       ⟨"t4", "T", 180, 4, none, none⟩, ⟨"t5", "T", 180, 5, none, none⟩,
       ⟨"t6", "T", 180, 6, none, none⟩, ⟨"t7", "T", 180, 7, none, none⟩,
       ⟨"t8", "T", 180, 8, none, none⟩,
       (⟨"t9", "T", 180, 9, none, none⟩ : TodoItem)].filter (fun t =>
      !((scheduleLocally
        [⟨"t0", "T", 180, 0, none, none⟩, ⟨"t1", "T", 180, 1, none, none⟩,
         ⟨"t2", "T", 180, 2, none, none⟩, ⟨"t3", "T", 180, 3, none, none⟩,
         ⟨"t4", "T", 180, 4, none, none⟩, ⟨"t5", "T", 180, 5, none, none⟩,
         ⟨"t6", "T", 180, 6, none, none⟩, ⟨"t7", "T", 180, 7, none, none⟩,
         ⟨"t8", "T", 180, 8, none, none⟩, ⟨"t9", "T", 180, 9, none, none⟩]
        [] 3 ⟨0, 0⟩).any
        (fun r => r.todoId == t.id)))).length :=
  c4_ten_tasks_at_most_four
    [⟨"t0", "T", 180, 0, none, none⟩, ⟨"t1", "T", 180, 1, none, none⟩,
     ⟨"t2", "T", 180, 2, none, none⟩, ⟨"t3", "T", 180, 3, none, none⟩,
     ⟨"t4", "T", 180, 4, none, none⟩, ⟨"t5", "T", 180, 5, none, none⟩,
     ⟨"t6", "T", 180, 6, none, none⟩, ⟨"t7", "T", 180, 7, none, none⟩,
     ⟨"t8", "T", 180, 8, none, none⟩, ⟨"t9", "T", 180, 9, none, none⟩]
    3 ⟨0, 0⟩ (by decide) (by decide) (by decide) (by decide)

/-! ## C8: priority monotonicity of the flexible search starts -/

/-- The state after processing a prefix of the flexible list (ignoring the
break flag; identical to `flexLoop` as long as every step commits). -/
def stepsAll (st : SchedState) (ts : List TodoItem) : SchedState :=
  ts.foldl (fun s t => (flexStep s t).1) st

/-- Every task of the list finds a slot (`scheduled = true` at each step). -/
def commitsAll (st : SchedState) : List TodoItem → Bool
  | [] => true
  | t :: ts => (flexStep st t).2 && commitsAll (flexStep st t).1 ts

theorem stepsAll_nil (st : SchedState) : stepsAll st [] = st := rfl

theorem stepsAll_cons (st : SchedState) (t : TodoItem) (ts : List TodoItem) :
    stepsAll st (t :: ts) = stepsAll (flexStep st t).1 ts := rfl

theorem stepsAll_append (st : SchedState) (xs ys : List TodoItem) :
    stepsAll st (xs ++ ys) = stepsAll (stepsAll st xs) ys :=
  List.foldl_append _ _ _ _

theorem commitsAll_append {st : SchedState} {xs ys : List TodoItem}
    (h : commitsAll st (xs ++ ys) = true) :
    commitsAll st xs = true ∧ commitsAll (stepsAll st xs) ys = true := by
  induction xs generalizing st with
  | nil => exact ⟨rfl, h⟩
  | cons x xs ih =>
    rw [List.cons_append, commitsAll, Bool.and_eq_true] at h
    obtain ⟨h1, h2⟩ := h
    obtain ⟨h3, h4⟩ := ih h2
    exact ⟨by rw [commitsAll, h1, h3]; rfl, by rwa [stepsAll_cons]⟩

theorem flexStep_cursor_mono {st : SchedState} {t : TodoItem}
    (hd : 0 < t.duration) : st.cursor ≤ ((flexStep st t).1).cursor := by
  rcases hfs : flexStep st t with ⟨st2, sched⟩
  cases sched with
  | false => rw [flexStep_false hfs]
  | true =>
    obtain ⟨s, hp, hst2⟩ := flexStep_true hfs
    have hs : st.cursor ≤ s := le_trans (initialSearch_ge _ _) (probe_ge hp)
    rw [hst2]
    dsimp only
    omega

theorem stepsAll_cursor_mono {ts : List TodoItem} {st : SchedState}
    (hpos : ∀ t ∈ ts, 0 < t.duration) : st.cursor ≤ (stepsAll st ts).cursor := by
  induction ts generalizing st with
  | nil => exact le_refl _
  | cons t ts ih =>
    rw [stepsAll_cons]
    exact le_trans (flexStep_cursor_mono (hpos t (List.mem_cons_self _ _)))
      (ih (fun u hu => hpos u (List.mem_cons_of_mem _ hu)))

/-- C8: among flexible tasks that both get scheduled in one run, the task with
the lower priority number (which the stable sort places earlier) has an initial
search-start minute that is at most the one computed for the later,
higher-priority-number task. Stated over the sorted flexible list of a run of
`scheduleLocally`; durations are positive as the data model requires. -/
theorem c8_priority_search_monotonic (todos : List TodoItem)
    (existingEvents : List CalendarEvent) (targetDate : Int) (now : DateTime)
    (l1 l2 l3 : List TodoItem) (a b : TodoItem)
    (hpos : ∀ t ∈ todos, 0 < t.duration)
    (hsorted : sortByPriority (partitionTasks todos).2 = l1 ++ a :: (l2 ++ b :: l3))
    (hprio : a.priority < b.priority)
    (hcommits : commitsAll
      (pinnedLoop ⟨buildOccupied existingEvents targetDate, [],
        initCursor targetDate now⟩ (partitionTasks todos).1)
      (l1 ++ a :: (l2 ++ [b])) = true) :
    initialSearch (stepsAll
      (pinnedLoop ⟨buildOccupied existingEvents targetDate, [],
        initCursor targetDate now⟩ (partitionTasks todos).1) l1).cursor a ≤
    initialSearch (stepsAll
      (pinnedLoop ⟨buildOccupied existingEvents targetDate, [],
        initCursor targetDate now⟩ (partitionTasks todos).1)
      (l1 ++ a :: l2)).cursor b := by
  set st1 := pinnedLoop ⟨buildOccupied existingEvents targetDate, [],
    initCursor targetDate now⟩ (partitionTasks todos).1 with hst1
  have hmemflex : ∀ t ∈ l1 ++ a :: (l2 ++ b :: l3), 0 < t.duration := by
    intro t ht
    exact hpos t (partition_flex_mem (mem_sortByPriority.mp (hsorted ▸ ht)))
  have hadur : 0 < a.duration := by
    refine hmemflex a ?_
    simp
  have hl2dur : ∀ t ∈ l2, 0 < t.duration := by
    intro t ht
    refine hmemflex t ?_
    simp [ht]
  obtain ⟨hc1, hc2⟩ := commitsAll_append hcommits
  rw [commitsAll, Bool.and_eq_true] at hc2
  set stA := stepsAll st1 l1 with hstA
  rcases hfa : flexStep stA a with ⟨stA2, scheda⟩
  rw [hfa] at hc2
  simp only at hc2
  cases scheda with
  | false => simp at hc2
  | true =>
    obtain ⟨s, hp, hstA2⟩ := flexStep_true hfa
    have hsa : initialSearch stA.cursor a ≤ s := probe_ge hp
    have hcurA2 : initialSearch stA.cursor a + a.duration + 5 ≤ stA2.cursor := by
      rw [hstA2]
      dsimp only
      omega
    have hBsplit : stepsAll st1 (l1 ++ a :: l2) = stepsAll stA2 l2 := by
      rw [stepsAll_append, stepsAll_cons, hfa]
    have hmono : stA2.cursor ≤ (stepsAll stA2 l2).cursor :=
      stepsAll_cursor_mono hl2dur
    have hfinal : initialSearch stA.cursor a <
        (stepsAll st1 (l1 ++ a :: l2)).cursor := by
      rw [hBsplit]
      omega
    exact le_trans (le_of_lt hfinal) (initialSearch_ge _ b)

/-- Witness for `c8_priority_search_monotonic` on a concrete two-task run. -/
theorem c8_priority_search_monotonic_witness :
    initialSearch (stepsAll
      (pinnedLoop ⟨buildOccupied [] 1, [], initCursor 1 ⟨0, 0⟩⟩
        (partitionTasks [⟨"a", "A", 30, 1, none, none⟩,
          ⟨"b", "B", 30, 2, none, none⟩]).1) []).cursor
      ⟨"a", "A", 30, 1, none, none⟩ ≤
    initialSearch (stepsAll
      (pinnedLoop ⟨buildOccupied [] 1, [], initCursor 1 ⟨0, 0⟩⟩
        (partitionTasks [⟨"a", "A", 30, 1, none, none⟩,
          ⟨"b", "B", 30, 2, none, none⟩]).1)
      ([] ++ ⟨"a", "A", 30, 1, none, none⟩ :: [])).cursor
      ⟨"b", "B", 30, 2, none, none⟩ :=
  c8_priority_search_monotonic
    [⟨"a", "A", 30, 1, none, none⟩, ⟨"b", "B", 30, 2, none, none⟩]
    [] 1 ⟨0, 0⟩ [] [] [] ⟨"a", "A", 30, 1, none, none⟩
    ⟨"b", "B", 30, 2, none, none⟩ (by decide) (by decide) (by decide) (by decide)

/-! ## C3: exact-preference tasks are pinned at their anchor or dropped -/

theorem partition_exact_mem {ts : List TodoItem} {pt : PinnedTask}
    (h : pt ∈ (partitionTasks ts).1) :
    pt.todo ∈ ts ∧ parsedPrefOf pt.todo = some ⟨pt.pinnedStart, true⟩ := by
  induction ts with
  | nil => simp [partitionTasks] at h
  | cons u us ih =>
    simp only [partitionTasks] at h
    cases hp : parsedPrefOf u with
    | none =>
      rw [hp] at h
      dsimp only at h
      obtain ⟨h1, h2⟩ := ih h
      exact ⟨List.mem_cons_of_mem _ h1, h2⟩
    | some p =>
      rw [hp] at h
      dsimp only at h
      by_cases hpe : p.exact
      · rw [if_pos hpe] at h
        rcases List.mem_cons.mp h with h | h
        · subst h
          refine ⟨List.mem_cons_self _ _, ?_⟩

          rw [hp]
          congr 1
          cases p
          simp only at hpe ⊢
          rw [hpe]
        · obtain ⟨h1, h2⟩ := ih h
          exact ⟨List.mem_cons_of_mem _ h1, h2⟩
      · rw [if_neg hpe] at h
        obtain ⟨h1, h2⟩ := ih h
        exact ⟨List.mem_cons_of_mem _ h1, h2⟩

/-- The two partition halves carry exactly the ids of the input tasks. -/
theorem partition_ids_perm (ts : List TodoItem) :
    ((partitionTasks ts).1.map (·.todo.id) ++
      (partitionTasks ts).2.map (·.id)).Perm (ts.map (·.id)) := by
  induction ts with
  | nil => simp [partitionTasks]
  | cons u us ih =>
    simp only [partitionTasks, List.map_cons]
    cases hp : parsedPrefOf u with
    | none =>
      dsimp only
      exact List.perm_middle.trans (ih.cons u.id)
    | some p =>
      dsimp only
      by_cases hpe : p.exact
      · rw [if_pos hpe]
        simp only [List.map_cons, List.cons_append]
        exact ih.cons u.id
      · rw [if_neg hpe]
        exact List.perm_middle.trans (ih.cons u.id)

theorem pinnedLoop_append (st : SchedState) (xs ys : List PinnedTask) :
    pinnedLoop st (xs ++ ys) = pinnedLoop (pinnedLoop st xs) ys := by
  induction xs generalizing st with
  | nil => rfl
  | cons x xs ih => rw [List.cons_append, pinnedLoop, pinnedLoop, ih]

theorem pinnedStep_commit {st : SchedState} {pt : PinnedTask}
    (h1 : pt.pinnedStart + pt.todo.duration ≤ endOfDay)
    (h2 : hasConflict st.occupied pt.pinnedStart
      (pt.pinnedStart + pt.todo.duration) = false) :
    pinnedStep st pt =
      { st with
        results := st.results ++
          [⟨pt.todo.id, pt.todo.title, pt.pinnedStart, pt.todo.duration⟩]
        occupied := insertIv st.occupied
          ⟨pt.pinnedStart, pt.pinnedStart + pt.todo.duration⟩ } := by
  simp only [pinnedStep]
  rw [if_neg (by omega), if_neg (by simp [h2])]

theorem pinnedStep_skip {st : SchedState} {pt : PinnedTask}
    (h : ¬(pt.pinnedStart + pt.todo.duration ≤ endOfDay ∧
      hasConflict st.occupied pt.pinnedStart
        (pt.pinnedStart + pt.todo.duration) = false)) :
    pinnedStep st pt = st := by
  simp only [pinnedStep]
  by_cases h1 : pt.pinnedStart + pt.todo.duration > endOfDay
  · rw [if_pos h1]
  · rw [if_neg h1]
    have h2 : hasConflict st.occupied pt.pinnedStart
        (pt.pinnedStart + pt.todo.duration) = true := by
      cases hc : hasConflict st.occupied pt.pinnedStart
        (pt.pinnedStart + pt.todo.duration) with
      | false => exact absurd ⟨by omega, hc⟩ h
      | true => rfl
    rw [if_pos h2]

/-- The pinned pass only appends results, each traceable to a listed task. -/
theorem pinnedLoop_results (st : SchedState) (l : List PinnedTask) :
    ∃ new, (pinnedLoop st l).results = st.results ++ new ∧
      ∀ r ∈ new, ∃ e ∈ l, r.todoId = e.todo.id ∧ r.startMinute = e.pinnedStart ∧
        r.duration = e.todo.duration := by
  induction l generalizing st with
  | nil => exact ⟨[], by simp [pinnedLoop], by simp⟩
  | cons pt pts ih =>
    rw [pinnedLoop]
    obtain ⟨new', hres', hprov'⟩ := ih (pinnedStep st pt)
    by_cases hc : pt.pinnedStart + pt.todo.duration ≤ endOfDay ∧
      hasConflict st.occupied pt.pinnedStart
        (pt.pinnedStart + pt.todo.duration) = false
    · refine ⟨⟨pt.todo.id, pt.todo.title, pt.pinnedStart, pt.todo.duration⟩ :: new',
        ?_, ?_⟩
      · rw [hres', pinnedStep_commit hc.1 hc.2]
        simp
      · intro r hr
        rcases List.mem_cons.mp hr with h | h
        · subst h
          exact ⟨pt, List.mem_cons_self _ _, rfl, rfl, rfl⟩
        · obtain ⟨e, he, hfields⟩ := hprov' r h
          exact ⟨e, List.mem_cons_of_mem _ he, hfields⟩
    · refine ⟨new', ?_, ?_⟩
      · rw [hres', pinnedStep_skip hc]
      · intro r hr
        obtain ⟨e, he, hfields⟩ := hprov' r hr
        exact ⟨e, List.mem_cons_of_mem _ he, hfields⟩

/-- The flexible pass only appends results, each carrying the id of a listed
task. -/
theorem flexLoop_results_ids (st : SchedState) (l : List TodoItem) :
    ∃ new, (flexLoop st l).results = st.results ++ new ∧
      ∀ r ∈ new, ∃ u ∈ l, r.todoId = u.id := by
  induction l generalizing st with
  | nil => exact ⟨[], by simp [flexLoop], by simp⟩
  | cons t ts ih =>
    unfold flexLoop
    rcases hfs : flexStep st t with ⟨st2, sched⟩
    simp only
    cases sched with
    | false =>
      rw [flexStep_false hfs]
      simp only [Bool.false_eq_true, if_false]
      exact ⟨[], by simp, by simp⟩
    | true =>
      obtain ⟨s, hp, hst2⟩ := flexStep_true hfs
      rw [if_pos rfl]
      obtain ⟨new', hres', hprov'⟩ := ih st2
      refine ⟨⟨t.id, t.title, s, t.duration⟩ :: new', ?_, ?_⟩
      · rw [hres', hst2]
        simp
      · intro r hr
        rcases List.mem_cons.mp hr with h | h
        · subst h
          exact ⟨t, List.mem_cons_self _ _, rfl⟩
        · obtain ⟨u, hu, hid⟩ := hprov' r h
          exact ⟨u, List.mem_cons_of_mem _ hu, hid⟩

/-- Replace the priority of the task with the given id, leaving every other
field and every other task unchanged. -/
def setPrio (tid : String) (p' : Int) (u : TodoItem) : TodoItem :=
  if u.id = tid then { u with priority := p' } else u

/-- `setPrio` lifted to a pinned-pass entry. -/
def setPrioPinned (tid : String) (p' : Int) (e : PinnedTask) : PinnedTask :=
  ⟨setPrio tid p' e.todo, e.pinnedStart⟩

theorem setPrio_id (tid : String) (p' : Int) (u : TodoItem) :
    (setPrio tid p' u).id = u.id := by
  unfold setPrio
  split <;> rfl

theorem setPrio_title (tid : String) (p' : Int) (u : TodoItem) :
    (setPrio tid p' u).title = u.title := by
  unfold setPrio
  split <;> rfl

theorem setPrio_duration (tid : String) (p' : Int) (u : TodoItem) :
    (setPrio tid p' u).duration = u.duration := by
  unfold setPrio
  split <;> rfl

theorem setPrio_timePreference (tid : String) (p' : Int) (u : TodoItem) :
    (setPrio tid p' u).timePreference = u.timePreference := by
  unfold setPrio
  split <;> rfl

theorem parsedPrefOf_setPrio (tid : String) (p' : Int) (u : TodoItem) :
    parsedPrefOf (setPrio tid p' u) = parsedPrefOf u := by
  unfold parsedPrefOf
  rw [setPrio_timePreference]

theorem partitionTasks_setPrio (tid : String) (p' : Int) (ts : List TodoItem) :
    partitionTasks (ts.map (setPrio tid p')) =
      ((partitionTasks ts).1.map (setPrioPinned tid p'),
        (partitionTasks ts).2.map (setPrio tid p')) := by
  induction ts with
  | nil => rfl
  | cons u us ih =>
    simp only [List.map_cons, partitionTasks, parsedPrefOf_setPrio, ih]
    cases hp : parsedPrefOf u with
    | none => rfl
    | some p =>
      dsimp only
      by_cases hpe : p.exact
      · rw [if_pos hpe, if_pos hpe]
        simp [setPrioPinned]
      · rw [if_neg hpe, if_neg hpe]
        simp

theorem pinnedStep_setPrio (tid : String) (p' : Int) (st : SchedState)
    (e : PinnedTask) :
    pinnedStep st (setPrioPinned tid p' e) = pinnedStep st e := by
  simp only [pinnedStep, setPrioPinned, setPrio_id, setPrio_title, setPrio_duration]

theorem pinnedLoop_setPrio (tid : String) (p' : Int) (st : SchedState)
    (es : List PinnedTask) :
    pinnedLoop st (es.map (setPrioPinned tid p')) = pinnedLoop st es := by
  induction es generalizing st with
  | nil => rfl
  | cons e es ih => rw [List.map_cons, pinnedLoop, pinnedLoop, pinnedStep_setPrio, ih]

theorem map_setPrio_of_not_mem {tid : String} {p' : Int} {fs : List TodoItem}
    (h : tid ∉ fs.map (·.id)) : fs.map (setPrio tid p') = fs := by
  induction fs with
  | nil => rfl
  | cons u us ih =>
    simp only [List.map_cons, List.mem_cons, not_or] at h
    rw [List.map_cons, ih h.2]
    have hu : ¬u.id = tid := fun he => h.1 he.symm
    rw [setPrio, if_neg hu]

/-- C3: a task whose preference parses as exact (so it sits in the pinned
list, here at position `l1 ++ pt :: l2`) is committed exactly at its anchor
minute — which happens iff `anchor + duration ≤ 1320` and no interval held
when its turn comes (existing events plus earlier pinned commits) strictly
overlaps `[anchor, anchor + duration)` — or is absent from the plan; it never
appears at any other start, and changing its priority value leaves the whole
plan unchanged. -/
theorem c3_exact_pinned_or_dropped (todos : List TodoItem)
    (existingEvents : List CalendarEvent) (targetDate : Int) (now : DateTime)
    (l1 l2 : List PinnedTask) (pt : PinnedTask)
    (hnodup : (todos.map (·.id)).Nodup)
    (hsplit : (partitionTasks todos).1 = l1 ++ pt :: l2) :
    (∀ r ∈ scheduleLocally todos existingEvents targetDate now,
        r.todoId = pt.todo.id →
          r.startMinute = pt.pinnedStart ∧ r.duration = pt.todo.duration) ∧
    ((∃ r ∈ scheduleLocally todos existingEvents targetDate now,
        r.todoId = pt.todo.id) ↔
      (pt.pinnedStart + pt.todo.duration ≤ endOfDay ∧
        hasConflict (pinnedLoop ⟨buildOccupied existingEvents targetDate, [],
            initCursor targetDate now⟩ l1).occupied
          pt.pinnedStart (pt.pinnedStart + pt.todo.duration) = false)) ∧
    (∀ p' : Int,
      scheduleLocally (todos.map (setPrio pt.todo.id p')) existingEvents
        targetDate now =
      scheduleLocally todos existingEvents targetDate now) := by
  rcases hpart : partitionTasks todos with ⟨es, fs⟩
  rw [hpart] at hsplit
  dsimp only at hsplit
  have hplan : scheduleLocally todos existingEvents targetDate now =
      (flexLoop (pinnedLoop ⟨buildOccupied existingEvents targetDate, [],
        initCursor targetDate now⟩ es) (sortByPriority fs)).results := by
    unfold scheduleLocally
    rw [hpart]
  -- id bookkeeping
  have hperm := partition_ids_perm todos
  rw [hpart] at hperm
  dsimp only at hperm
  have hnd : (es.map (·.todo.id) ++ fs.map (·.id)).Nodup :=
    hperm.nodup_iff.mpr hnodup
  rw [hsplit, List.map_append, List.map_cons] at hnd
  obtain ⟨hnd1, hnd2, hdisj⟩ := List.nodup_append.mp hnd
  obtain ⟨hndl1, hndc, hdisj1⟩ := List.nodup_append.mp hnd1
  have htid_l1 : pt.todo.id ∉ l1.map (·.todo.id) := by
    intro hmem
    exact hdisj1 hmem (List.mem_cons_self _ _)
  have htid_l2 : pt.todo.id ∉ l2.map (·.todo.id) :=
    (List.nodup_cons.mp hndc).1
  have htid_fs : pt.todo.id ∉ fs.map (·.id) := by
    intro hmem
    exact hdisj (List.mem_append_right _ (List.mem_cons_self _ _)) hmem
  set st0 : SchedState := ⟨buildOccupied existingEvents targetDate, [],
    initCursor targetDate now⟩ with hst0
  set stPre := pinnedLoop st0 l1 with hstPre
  have hploop : pinnedLoop st0 es = pinnedLoop (pinnedStep stPre pt) l2 := by
    rw [hsplit, pinnedLoop_append]
    rfl
  obtain ⟨newPre, hresPre, hprovPre⟩ := pinnedLoop_results st0 l1
  obtain ⟨new2, hres2, hprov2⟩ := pinnedLoop_results (pinnedStep stPre pt) l2
  obtain ⟨new3, hres3, hprov3⟩ :=
    flexLoop_results_ids (pinnedLoop (pinnedStep stPre pt) l2) (sortByPriority fs)
  have hPreNil : stPre.results = newPre := by
    rw [hstPre, hresPre]
    simp [hst0]
  -- provenance contradiction helpers
  have hnotPre : ∀ r ∈ stPre.results, r.todoId ≠ pt.todo.id := by
    intro r hr hid
    rw [hPreNil] at hr
    obtain ⟨e, he, hide, -, -⟩ := hprovPre r hr
    exact htid_l1 (List.mem_map.mpr ⟨e, he, by rw [← hide, hid]⟩)
  have hnot2 : ∀ r ∈ new2, r.todoId ≠ pt.todo.id := by
    intro r hr hid
    obtain ⟨e, he, hide, -, -⟩ := hprov2 r hr
    exact htid_l2 (List.mem_map.mpr ⟨e, he, by rw [← hide, hid]⟩)
  have hnot3 : ∀ r ∈ new3, r.todoId ≠ pt.todo.id := by
    intro r hr hid
    obtain ⟨u, hu, hide⟩ := hprov3 r hr
    exact htid_fs (List.mem_map.mpr
      ⟨u, mem_sortByPriority.mp hu, by rw [← hide, hid]⟩)
  -- priority independence
  have h3 : ∀ p' : Int,
      scheduleLocally (todos.map (setPrio pt.todo.id p')) existingEvents
        targetDate now =
      scheduleLocally todos existingEvents targetDate now := by
    intro p'
    rw [hplan]
    unfold scheduleLocally
    rw [partitionTasks_setPrio, hpart]
    dsimp only
    rw [pinnedLoop_setPrio, map_setPrio_of_not_mem htid_fs]
  by_cases hcond : pt.pinnedStart + pt.todo.duration ≤ endOfDay ∧
      hasConflict stPre.occupied pt.pinnedStart
        (pt.pinnedStart + pt.todo.duration) = false
  · -- committed at the anchor
    have hstep := pinnedStep_commit hcond.1 hcond.2
    have hplaneq : scheduleLocally todos existingEvents targetDate now =
        ((stPre.results ++
          [⟨pt.todo.id, pt.todo.title, pt.pinnedStart, pt.todo.duration⟩]) ++
          new2) ++ new3 := by
      rw [hplan, hploop, hres3, hres2, hstep]
    refine ⟨?_, ⟨fun _ => hcond, fun _ => ?_⟩, h3⟩
    · intro r hr hid
      rw [hplaneq] at hr
      rcases List.mem_append.mp hr with hr' | hr'
      · rcases List.mem_append.mp hr' with hr'' | hr''
        · rcases List.mem_append.mp hr'' with hr3 | hr3
          · exact absurd hid (hnotPre r hr3)
          · simp only [List.mem_singleton] at hr3
            subst hr3
            exact ⟨rfl, rfl⟩
        · exact absurd hid (hnot2 r hr'')
      · exact absurd hid (hnot3 r hr')
    · refine ⟨⟨pt.todo.id, pt.todo.title, pt.pinnedStart, pt.todo.duration⟩,
        ?_, rfl⟩
      rw [hplaneq]
      exact List.mem_append_left _ (List.mem_append_left _
        (List.mem_append_right _ (List.mem_singleton.mpr rfl)))
  · -- dropped
    have hstep := pinnedStep_skip hcond
    have hplaneq : scheduleLocally todos existingEvents targetDate now =
        (stPre.results ++ new2) ++ new3 := by
      rw [hplan, hploop, hres3, hres2, hstep]
    have hnone : ∀ r ∈ scheduleLocally todos existingEvents targetDate now,
        r.todoId ≠ pt.todo.id := by
      intro r hr
      rw [hplaneq] at hr
      rcases List.mem_append.mp hr with hr' | hr'
      · rcases List.mem_append.mp hr' with hr'' | hr''
        · exact hnotPre r hr''
        · exact hnot2 r hr''
      · exact hnot3 r hr'
    refine ⟨?_, ⟨?_, fun hc => absurd hc hcond⟩, h3⟩
    · intro r hr hid
      exact absurd hid (hnone r hr)
    · rintro ⟨r, hr, hid⟩
      exact absurd hid (hnone r hr)

/-- Witness for `c3_exact_pinned_or_dropped` on a concrete run with one
pinned and one flexible task. -/
theorem c3_exact_pinned_or_dropped_witness :
    (∀ r ∈ scheduleLocally [⟨"x", "X", 30, 5, some "at 2pm", none⟩,
        ⟨"y", "Y", 30, 1, none, none⟩] [] 3 ⟨0, 0⟩,
        r.todoId = (PinnedTask.mk ⟨"x", "X", 30, 5, some "at 2pm", none⟩ 840).todo.id →
          r.startMinute = (PinnedTask.mk ⟨"x", "X", 30, 5, some "at 2pm", none⟩ 840).pinnedStart ∧
          r.duration = (PinnedTask.mk ⟨"x", "X", 30, 5, some "at 2pm", none⟩ 840).todo.duration) ∧
    ((∃ r ∈ scheduleLocally [⟨"x", "X", 30, 5, some "at 2pm", none⟩,
        ⟨"y", "Y", 30, 1, none, none⟩] [] 3 ⟨0, 0⟩,
        r.todoId = (PinnedTask.mk ⟨"x", "X", 30, 5, some "at 2pm", none⟩ 840).todo.id) ↔
      ((PinnedTask.mk ⟨"x", "X", 30, 5, some "at 2pm", none⟩ 840).pinnedStart +
          (PinnedTask.mk ⟨"x", "X", 30, 5, some "at 2pm", none⟩ 840).todo.duration ≤ endOfDay ∧
        hasConflict (pinnedLoop ⟨buildOccupied [] 3, [], initCursor 3 ⟨0, 0⟩⟩ []).occupied
          (PinnedTask.mk ⟨"x", "X", 30, 5, some "at 2pm", none⟩ 840).pinnedStart
          ((PinnedTask.mk ⟨"x", "X", 30, 5, some "at 2pm", none⟩ 840).pinnedStart +
            (PinnedTask.mk ⟨"x", "X", 30, 5, some "at 2pm", none⟩ 840).todo.duration) = false)) ∧
    (∀ p' : Int,
      scheduleLocally ([⟨"x", "X", 30, 5, some "at 2pm", none⟩,
          ⟨"y", "Y", 30, 1, none, none⟩].map
        (setPrio (PinnedTask.mk ⟨"x", "X", 30, 5, some "at 2pm", none⟩ 840).todo.id p'))
        [] 3 ⟨0, 0⟩ =
      scheduleLocally [⟨"x", "X", 30, 5, some "at 2pm", none⟩,
        ⟨"y", "Y", 30, 1, none, none⟩] [] 3 ⟨0, 0⟩) :=
  c3_exact_pinned_or_dropped
    [⟨"x", "X", 30, 5, some "at 2pm", none⟩, ⟨"y", "Y", 30, 1, none, none⟩]
    [] 3 ⟨0, 0⟩ [] [] ⟨⟨"x", "X", 30, 5, some "at 2pm", none⟩, 840⟩
    (by decide) (by decide)

end TodoVocal
